import Mathlib

/-!
Formal model of the core business logic of the `cabinet` repository:

* the "cabinet" client-management application
  (`src/cabinet_compta/cabinet/models.py`): associate share distributions
  (`Societe.total_parts`, `Societe.distribution`) and share transfers
  (`Cession.apply_to_distribution`);
* the accounting application (`src/app/models.py`, `src/app/routes.py`):
  journal entries, balance validation (`entry_create`, `Entry.is_balanced`),
  sequential reference generation (`Journal.next_sequence`,
  `Numbering.next_sequence`), and the aggregation reports
  (`report_trial_balance`, `report_ledger`, `report_balance_sheet`,
  `report_income_statement`).

Monetary amounts (`db.Numeric(14, 2)` columns) are represented as integer
cents, so Python's `round(x, 2)` on the 2-decimal domain is the identity and
equality of rounded totals is integer equality.  Share counts
(`db.Integer` columns) are represented as `Int`.  Dates are represented as
(year, month, day) triples ordered lexicographically, exactly as Python
`datetime.date` values compare.
-/

namespace Cabinet

/-- An `Associate` row of the cabinet app: `name`, optional `address`,
`parts_count` (`src/cabinet_compta/cabinet/models.py:69`). -/
structure Associate where
  name : String
  address : Option String
  parts_count : Int
  deriving DecidableEq, Repr

/-- Function `Societe.total_parts` (`models.py:53`): sum of `parts_count` over the
associate list. -/
def total_parts (l : List Associate) : Int :=
  (l.map (·.parts_count)).sum

/-- One row of the result of `Societe.distribution`. -/
structure DistRow where
  name : String
  address : Option String
  parts_count : Int
  percent : ℚ
  deriving DecidableEq, Repr

/-- Function `Societe.distribution` (`models.py:56`): `total = self.total_parts() or 1`
(Python `or`: `1` exactly when the total is `0`), then one row per associate
with `percent = (a.parts_count / total) * 100.0`.  The float division is
modelled by exact rational division. -/
def distribution (l : List Associate) : List DistRow :=
  let total : Int := if total_parts l = 0 then 1 else total_parts l
  l.map fun a =>
    { name := a.name
      address := a.address
      parts_count := a.parts_count
      percent := ((a.parts_count : ℚ) / (total : ℚ)) * 100 }

/-- First associate of the list carrying the given name, if any: the Python
`next((a for a in societe.associates if a.name == name), None)`. -/
def findAssoc (l : List Associate) (nm : String) : Option Associate :=
  l.find? fun a => decide (a.name = nm)

/-- The `parts_count` of the first associate named `nm`, `0` when absent (a
freshly created associate starts at `parts_count = 0`). -/
def lookupParts (l : List Associate) (nm : String) : Int :=
  match findAssoc l nm with
  | some a => a.parts_count
  | none => 0

/-- In-place mutation of the `parts_count` of the first associate named `nm`:
the value is replaced by `f` of the value it has at mutation time.  Models a
Python attribute assignment through an object reference. -/
def setParts (l : List Associate) (nm : String) (f : Int → Int) : List Associate :=
  match l with
  | [] => []
  | a :: rest =>
      if a.name = nm then { a with parts_count := f a.parts_count } :: rest
      else a :: setParts rest nm f

/-- The find-or-create step of `Cession.apply_to_distribution`: when no
associate carries the name, a fresh one with `parts_count=0` is appended to
the list (`societe.associates.append(...)`, `models.py:108`–`115`). -/
def findOrCreate (l : List Associate) (nm : String) : List Associate :=
  if (findAssoc l nm).isSome then l else l ++ [⟨nm, none, 0⟩]

/-- Function `Cession.apply_to_distribution` (`models.py:101`–`117`): no-op for
`parts ≤ 0`; otherwise find-or-create (append, starting at 0 parts) an
associate for the cedant and then for the cessionnaire, then set the cedant's
count to `max 0 (current − parts)` and the cessionnaire's count to
`current + parts`.  The two assignments read the count at assignment time, so
when both names resolve to the same associate the second assignment sees the
result of the first. -/
def apply_to_distribution (l : List Associate) (cedant cessionnaire : String)
    (parts : Int) : List Associate :=
  if parts ≤ 0 then l
  else
    let l1 := findOrCreate l cedant
    let l2 := findOrCreate l1 cessionnaire
    let l3 := setParts l2 cedant (fun v => max 0 (v - parts))
    setParts l3 cessionnaire (fun v => v + parts)

end Cabinet

namespace Ledger

/-! ### Decimal formatting

Python's `f"{n}"` and `f"{n:04d}"` on non-negative integers, modelled by a
fuel-based base-10 digit extraction (so that everything reduces in the
kernel). -/

/-- Base-10 digits, least significant first, with explicit fuel. -/
def digitsRevGo : Nat → Nat → List Nat
  | 0, _ => []
  | fuel + 1, n => if n = 0 then [] else n % 10 :: digitsRevGo fuel (n / 10)

/-- Base-10 digits of `n`, least significant first. -/
def digitsRev (n : Nat) : List Nat :=
  digitsRevGo n n

/-- The decimal string of `n`, as Python str builds it. -/
def natDigitsStr (n : Nat) : String :=
  if n = 0 then "0" else ⟨(digitsRev n).reverse.map Nat.digitChar⟩

/-- Python zero-padded formatting (format spec 04d) of a non-negative `n`:
the decimal string left-padded with zeros to at least four characters. -/
def pad4 (n : Nat) : String :=
  ⟨List.replicate (4 - (natDigitsStr n).length) '0' ++ (natDigitsStr n).data⟩

/-- Numeric value of a decimal digit character. -/
def charVal (c : Char) : Nat :=
  c.toNat - 48

/-- Parse a char list as a base-10 number (ignoring leading zeros). -/
def strToNatAux (cs : List Char) : Nat :=
  cs.foldl (fun acc c => acc * 10 + charVal c) 0

/-- Left inverse of `pad4`. -/
def unpad4 (s : String) : Nat :=
  strToNatAux s.data

/-- A Python `datetime.date`: dates compare lexicographically on
(year, month, day). -/
structure PyDate where
  year : Nat
  month : Nat
  day : Nat
  deriving DecidableEq, Repr

/-- Comparison of Python dates (less than or equal). -/
def pyDateLE (a b : PyDate) : Bool :=
  decide (a.year < b.year) ||
    (decide (a.year = b.year) &&
      (decide (a.month < b.month) ||
        (decide (a.month = b.month) && decide (a.day ≤ b.day))))

/-- Comparison of Python dates (strictly less than). -/
def pyDateLT (a b : PyDate) : Bool :=
  decide (a.year < b.year) ||
    (decide (a.year = b.year) &&
      (decide (a.month < b.month) ||
        (decide (a.month = b.month) && decide (a.day < b.day))))

/-- A `Journal` row (`src/app/models.py:26`).  The `prefix` column is named
`prefix_str` here because `prefix` is a reserved word in Lean. -/
structure Journal where
  code : String
  name : String
  type : String
  prefix_str : String
  next_number : Nat
  deriving DecidableEq, Repr

/-- Method `Journal.next_sequence` (`models.py:37`–`41`): build the string
prefix, then the year, then a hyphen, then the counter zero-padded to four
digits; then increment `next_number` by one.  Returned as
(reference, updated journal). -/
def Journal.next_sequence (j : Journal) (when : PyDate) : String × Journal :=
  (j.prefix_str ++ natDigitsStr when.year ++ "-" ++ pad4 j.next_number,
   { j with next_number := j.next_number + 1 })

/-- A `Numbering` row (`models.py:150`): a per-scope counter structurally
identical to the journal counter. -/
structure Numbering where
  scope : String
  prefix_str : String
  next_number : Nat
  deriving DecidableEq, Repr

/-- Method `Numbering.next_sequence` (`models.py:158`–`162`), byte-for-byte the
same logic as `Journal.next_sequence`. -/
def Numbering.next_sequence (nb : Numbering) (when : PyDate) :
    String × Numbering :=
  (nb.prefix_str ++ natDigitsStr when.year ++ "-" ++ pad4 nb.next_number,
   { nb with next_number := nb.next_number + 1 })

/-- Running `N` successive `next_sequence` calls on the same journal, collecting the
returned references. -/
def runCallsJournal (j : Journal) (when : PyDate) : Nat → List String × Journal
  | 0 => ([], j)
  | Nat.succ n =>
      let p := j.next_sequence when
      let q := runCallsJournal p.2 when n
      (p.1 :: q.1, q.2)

/-- The purchases journal of the spec's numbering example: prefix `"ACH-"`,
counter starting at 1. -/
def journalACH : Journal :=
  ⟨"ACH", "Achats", "purchases", "ACH-", 1⟩

/-- An `Account` row (`src/app/models.py:13`): unique `code`, display
`name`, chart-of-accounts `class_code` (a one-character string), and a
`type` tag. -/
structure Account where
  code : String
  name : String
  class_code : String
  type : String
  deriving DecidableEq, Repr

/-- An `EntryLine` row (`models.py:68`) with its account resolved through
the `account` relationship; `debit`/`credit` are cents. -/
structure EntryLine where
  account : Account
  label : Option String
  debit : Int
  credit : Int
  deriving DecidableEq, Repr

/-- An `Entry` row (`models.py:44`) together with its owned lines. -/
structure Entry where
  entry_date : PyDate
  reference : String
  description : Option String
  document_ref : Option String
  validated : Bool
  lines : List EntryLine
  deriving DecidableEq, Repr

/-- Method `Entry.total_debit` (`models.py:58`). -/
def Entry.total_debit (en : Entry) : Int :=
  (en.lines.map (·.debit)).sum

/-- Method `Entry.total_credit` (`models.py:61`). -/
def Entry.total_credit (en : Entry) : Int :=
  (en.lines.map (·.credit)).sum

/-- Method `Entry.is_balanced` (`models.py:64`):
`round(total_debit - total_credit, 2) == 0.0`; on integer cents the rounding
is the identity. -/
def Entry.is_balanced (en : Entry) : Bool :=
  decide (en.total_debit - en.total_credit = 0)

/-- One submitted form row of the entry-creation form
(`routes.py:186`–`199`): an optional selected account, an optional label,
and debit/credit amounts in cents (an empty amount field parses to 0). -/
structure FormLine where
  account : Option Account
  label : Option String
  debit : Int
  credit : Int
  deriving DecidableEq, Repr

/-- The lines kept by the `entry_create` loop (`routes.py:187`–`199`): rows
without a selected account are skipped, and rows whose debit and credit are
both zero are skipped; every other row becomes an `EntryLine`. -/
def keptLines (rows : List FormLine) : List EntryLine :=
  rows.filterMap fun r =>
    match r.account with
    | none => none
    | some a =>
        if r.debit = 0 ∧ r.credit = 0 then none
        else some ⟨a, r.label, r.debit, r.credit⟩

/-- Route handler `entry_create` (`routes.py:167`–`209`): draw the next
reference from the journal, build the entry (unvalidated) and its kept
lines, then commit if balanced and roll back otherwise.  Result:
(success flag, journal after the request, entries table after the
request). -/
def entry_create (j : Journal) (entries : List Entry) (entry_date : PyDate)
    (description document_ref : Option String) (rows : List FormLine) :
    Bool × Journal × List Entry :=
  let seq := j.next_sequence entry_date
  let entry : Entry :=
    ⟨entry_date, seq.1, description, document_ref, false, keptLines rows⟩
  if entry.is_balanced then (true, seq.2, entries ++ [entry])
  else (false, j, entries)

/-- The entry-level filter shared by all four report queries
(`routes.py:289`–`453`): `Entry.validated.is_(True)` plus the optional
inclusive date bounds `entry_date >= start` and `entry_date <= end`. -/
def entryInScope (s e : Option PyDate) (en : Entry) : Bool :=
  en.validated &&
    (match s with
     | none => true
     | some d => pyDateLE d en.entry_date) &&
    (match e with
     | none => true
     | some d => pyDateLE en.entry_date d)

/-- The entries a report draws from. -/
def scopedEntries (db : List Entry) (s e : Option PyDate) : List Entry :=
  db.filter (entryInScope s e)

/-- The joined (entry, line) rows a report aggregates: the SQL join of
`EntryLine` with its owning `Entry`, filtered as above. -/
def scopedPairs (db : List Entry) (s e : Option PyDate) :
    List (Entry × EntryLine) :=
  ((scopedEntries db s e).map fun en => en.lines.map fun l => (en, l)).flatten

/-- The lines a report aggregates. -/
def scopedLines (db : List Entry) (s e : Option PyDate) : List EntryLine :=
  (scopedPairs db s e).map (·.2)

/-- Row order of the trial balance: ascending account code
(`order_by(Account.code)`). -/
def accLE (a b : Account) : Prop :=
  a.code ≤ b.code

instance : DecidableRel accLE :=
  fun a b => inferInstanceAs (Decidable (a.code ≤ b.code))

instance : IsTotal Account accLE :=
  ⟨fun a b => le_total a.code b.code⟩

instance : IsTrans Account accLE :=
  ⟨fun _ _ _ hab hbc => le_trans hab hbc⟩

/-- Sum of debits of the lines posted to account `a`. -/
def sumDebitFor (ls : List EntryLine) (a : Account) : Int :=
  (((ls.filter fun l => decide (l.account = a)).map (·.debit))).sum

/-- Sum of credits of the lines posted to account `a`. -/
def sumCreditFor (ls : List EntryLine) (a : Account) : Int :=
  (((ls.filter fun l => decide (l.account = a)).map (·.credit))).sum

/-- One row of the trial-balance report (`routes.py:308`–`317`). -/
structure TBRow where
  code : String
  name : String
  debit : Int
  credit : Int
  balance : Int
  deriving DecidableEq, Repr

/-- The group-by keys of the trial balance: the distinct posted accounts,
ordered by account code. -/
def tbKeys (ls : List EntryLine) : List Account :=
  List.insertionSort accLE ((ls.map (·.account)).dedup)

/-- Route handler `report_trial_balance` (`routes.py:289`–`322`), rows part:
per posted account, the sums of debit and credit and the balance
debit − credit, ordered by account code. -/
def report_trial_balance_rows (db : List Entry) (s e : Option PyDate) :
    List TBRow :=
  (tbKeys (scopedLines db s e)).map fun a =>
    ⟨a.code, a.name, sumDebitFor (scopedLines db s e) a,
     sumCreditFor (scopedLines db s e) a,
     sumDebitFor (scopedLines db s e) a - sumCreditFor (scopedLines db s e) a⟩

/-- Grand totals of the trial balance (`routes.py:318`–`321`): the sums of
the per-row debit and credit columns. -/
def report_trial_balance_totals (db : List Entry) (s e : Option PyDate) :
    Int × Int :=
  (((report_trial_balance_rows db s e).map (·.debit)).sum,
   ((report_trial_balance_rows db s e).map (·.credit)).sum)

/-- Row order of the ledger (`order_by(Entry.entry_date, Entry.reference)`,
`routes.py:375`). -/
def entryOrdLE (p q : Entry × EntryLine) : Prop :=
  pyDateLT p.1.entry_date q.1.entry_date = true ∨
    (p.1.entry_date = q.1.entry_date ∧ p.1.reference ≤ q.1.reference)

instance : DecidableRel entryOrdLE :=
  fun p q =>
    inferInstanceAs (Decidable (pyDateLT p.1.entry_date q.1.entry_date = true ∨
      (p.1.entry_date = q.1.entry_date ∧ p.1.reference ≤ q.1.reference)))

/-- Route handler `report_ledger` (`routes.py:361`–`386`), one account's
postings: the validated, date-bounded lines of that account ordered by
(entry date, reference). -/
def report_ledger_for (db : List Entry) (s e : Option PyDate) (a : Account) :
    List (Entry × EntryLine) :=
  List.insertionSort entryOrdLE
    ((scopedPairs db s e).filter fun p => decide (p.2.account = a))

/-- The validated, date-bounded lines whose account class code lies in
`classes` (the `Account.class_code.in_(classes)` filter of the balance-sheet
and income-statement queries). -/
def classPairs (db : List Entry) (s e : Option PyDate)
    (classes : List String) : List (Entry × EntryLine) :=
  (scopedPairs db s e).filter fun p =>
    decide (p.2.account.class_code ∈ classes)

/-- Function `sum_for_classes` of `report_income_statement`
(`routes.py:425`–`440`): sum of credits minus sum of debits over the class
filter (income positive). -/
def sum_for_classes_income (db : List Entry) (s e : Option PyDate)
    (classes : List String) : Int :=
  (((classPairs db s e classes).map fun p => p.2.credit).sum) -
    (((classPairs db s e classes).map fun p => p.2.debit).sum)

/-- Route handler `report_income_statement` (`routes.py:422`–`453`):
(revenue over class 7, expenses over class 6, result = revenue −
expenses). -/
def report_income_statement (db : List Entry) (s e : Option PyDate) :
    Int × Int × Int :=
  let revenue := sum_for_classes_income db s e ["7"]
  let expenses := sum_for_classes_income db s e ["6"]
  (revenue, expenses, revenue - expenses)

/-- Function `sum_for_classes` of `report_balance_sheet`
(`routes.py:393`–`408`): sum of debits minus sum of credits over the class
filter. -/
def sum_for_classes_balance (db : List Entry) (s e : Option PyDate)
    (classes : List String) : Int :=
  (((classPairs db s e classes).map fun p => p.2.debit).sum) -
    (((classPairs db s e classes).map fun p => p.2.credit).sum)

/-- Route handler `report_balance_sheet` (`routes.py:389`–`419`):
(assets over classes 1,2,3,5; liabilities and equity as the negated
debit−credit sum over class 4). -/
def report_balance_sheet (db : List Entry) (s e : Option PyDate) :
    Int × Int :=
  (sum_for_classes_balance db s e ["1", "2", "3", "5"],
   - sum_for_classes_balance db s e ["4"])

/-- A sample receivables account of the Moroccan chart. -/
def accClients : Account :=
  ⟨"3421", "Clients", "3", "asset"⟩

/-- A sample revenue account of the Moroccan chart. -/
def accVentes : Account :=
  ⟨"7111", "Ventes de marchandises", "7", "income"⟩

/-- A sample validated, balanced sales entry. -/
def entrySale : Entry :=
  ⟨⟨2024, 3, 10⟩, "VT-2024-0001", none, none, true,
   [⟨accClients, none, 12000, 0⟩, ⟨accVentes, none, 0, 12000⟩]⟩

/-- A sample one-entry database. -/
def dbSample : List Entry :=
  [entrySale]

end Ledger

namespace Cabinet

/-! Basic lemmas about `findAssoc`, `lookupParts`, `setParts`,
`total_parts`. -/

theorem findAssoc_append_self (l : List Associate) (nm : String)
    (h : findAssoc l nm = none) :
    findAssoc (l ++ [⟨nm, none, 0⟩]) nm = some ⟨nm, none, 0⟩ := by
  induction l with
  | nil => simp [findAssoc]
  | cons a rest ih =>
      simp only [findAssoc, List.find?] at h ⊢
      cases hn : decide (a.name = nm) with
      | true => simp [hn] at h
      | false =>
          simp only [hn] at h ⊢
          exact ih h

theorem lookupParts_of_absent (l : List Associate) (nm : String)
    (h : findAssoc l nm = none) :
    lookupParts l nm = 0 := by
  simp [lookupParts, h]

theorem lookupParts_append_absent (l : List Associate) (nm : String)
    (h : findAssoc l nm = none) :
    lookupParts (l ++ [⟨nm, none, 0⟩]) nm = 0 := by
  simp [lookupParts, findAssoc_append_self l nm h]

theorem setParts_of_absent (l : List Associate) (nm : String) (f : Int → Int)
    (h : findAssoc l nm = none) :
    setParts l nm f = l := by
  induction l with
  | nil => simp [setParts]
  | cons a rest ih =>
      simp only [findAssoc, List.find?] at h
      cases hn : decide (a.name = nm) with
      | true => simp [hn] at h
      | false =>
          have hne : ¬ a.name = nm := of_decide_eq_false hn
          simp only [setParts, if_neg hne]
          simp only [hn] at h
          exact congrArg (a :: ·) (ih h)

theorem lookupParts_setParts_self (l : List Associate) (nm : String)
    (f : Int → Int) (h : (findAssoc l nm).isSome) :
    lookupParts (setParts l nm f) nm = f (lookupParts l nm) := by
  induction l with
  | nil => simp [findAssoc] at h
  | cons a rest ih =>
      by_cases hn : a.name = nm
      · simp [setParts, lookupParts, findAssoc, List.find?, hn]
      · simp only [findAssoc, List.find?, decide_eq_true_eq] at h
        simp only [setParts, if_neg hn]
        simp only [lookupParts, findAssoc, List.find?,
          (by simpa using hn : decide (a.name = nm) = false)] at ih ⊢
        apply ih
        simpa [findAssoc, hn] using h

theorem lookupParts_setParts_other (l : List Associate) (nm nm' : String)
    (f : Int → Int) (h : nm' ≠ nm) :
    lookupParts (setParts l nm f) nm' = lookupParts l nm' := by
  induction l with
  | nil => simp [setParts]
  | cons a rest ih =>
      by_cases hn : a.name = nm
      · simp [setParts, lookupParts, findAssoc, List.find?, hn, Ne.symm h]
      · simp only [setParts, if_neg hn]
        by_cases hn' : a.name = nm'
        · simp [lookupParts, findAssoc, List.find?, hn']
        · simp only [lookupParts, findAssoc, List.find?,
            (by simpa using hn' : decide (a.name = nm') = false)] at ih ⊢
          exact ih

theorem findAssoc_setParts_isSome (l : List Associate) (nm nm' : String)
    (f : Int → Int) :
    (findAssoc (setParts l nm f) nm').isSome = (findAssoc l nm').isSome := by
  induction l with
  | nil => simp [setParts]
  | cons a rest ih =>
      by_cases hn : a.name = nm
      · by_cases hn' : a.name = nm'
        · simp only [setParts, if_pos hn]
          simp [findAssoc, List.find?, hn',
            (show ({ a with parts_count := f a.parts_count } : Associate).name = nm' from hn')]
        · simp only [setParts, if_pos hn]
          have : ¬ ({ a with parts_count := f a.parts_count } : Associate).name = nm' := hn'
          simp [findAssoc, List.find?,
            (by simpa using this : decide (a.name = nm') = false),
            (by simpa using hn' : decide (a.name = nm') = false)]
      · simp only [setParts, if_neg hn]
        by_cases hn' : a.name = nm'
        · simp [findAssoc, List.find?, hn']
        · simp only [findAssoc, List.find?,
            (by simpa using hn' : decide (a.name = nm') = false)] at ih ⊢
          exact ih

theorem findAssoc_append (l l' : List Associate) (nm : String) :
    findAssoc (l ++ l') nm = (findAssoc l nm).or (findAssoc l' nm) := by
  simp [findAssoc, List.find?_append]

theorem lookupParts_append_other (l : List Associate) (nm nm' : String)
    (h : nm' ≠ nm) :
    lookupParts (l ++ [⟨nm, none, 0⟩]) nm' = lookupParts l nm' := by
  rw [lookupParts, findAssoc_append]
  have h2 : findAssoc [(⟨nm, none, 0⟩ : Associate)] nm' = none := by
    simp [findAssoc, List.find?, Ne.symm h]
  cases hfa : findAssoc l nm' with
  | some a => simp [lookupParts, hfa]
  | none => simp [lookupParts, hfa, h2]

theorem total_parts_append (l l' : List Associate) :
    total_parts (l ++ l') = total_parts l + total_parts l' := by
  simp [total_parts]

theorem total_parts_setParts (l : List Associate) (nm : String) (f : Int → Int)
    (h : (findAssoc l nm).isSome) :
    total_parts (setParts l nm f) =
      total_parts l - lookupParts l nm + f (lookupParts l nm) := by
  induction l with
  | nil => simp [findAssoc] at h
  | cons a rest ih =>
      by_cases hn : a.name = nm
      · simp only [setParts, if_pos hn, total_parts, List.map, List.sum_cons,
          lookupParts, findAssoc, List.find?, (by simpa using hn : decide (a.name = nm) = true)]
        ring
      · simp only [findAssoc, List.find?, decide_eq_true_eq] at h
        simp only [setParts, if_neg hn]
        have hd : decide (a.name = nm) = false := by simpa using hn
        simp only [lookupParts, findAssoc, List.find?, hd] at ih ⊢
        have h' : (List.find? (fun a => decide (a.name = nm)) rest).isSome := by
          simpa [findAssoc, hn] using h
        simp only [total_parts, List.map, List.sum_cons] at ih ⊢
        rw [ih h']
        ring

theorem names_setParts (l : List Associate) (nm : String) (f : Int → Int) :
    (setParts l nm f).map (·.name) = l.map (·.name) := by
  induction l with
  | nil => simp [setParts]
  | cons a rest ih =>
      by_cases hn : a.name = nm
      · simp [setParts, hn]
      · simp [setParts, hn, ih]

theorem findOrCreate_isSome_self (l : List Associate) (nm : String) :
    (findAssoc (findOrCreate l nm) nm).isSome := by
  rw [findOrCreate]
  cases h : (findAssoc l nm).isSome with
  | true => simp [h]
  | false =>
      have hn : findAssoc l nm = none := by
        cases hfa : findAssoc l nm <;> simp [hfa] at h ⊢
      simp [h, findAssoc_append_self l nm hn]

theorem findOrCreate_lookup_self (l : List Associate) (nm : String) :
    lookupParts (findOrCreate l nm) nm = lookupParts l nm := by
  rw [findOrCreate]
  cases h : (findAssoc l nm).isSome with
  | true => simp
  | false =>
      have hn : findAssoc l nm = none := by
        cases hfa : findAssoc l nm <;> simp [hfa] at h ⊢
      simp [lookupParts_append_absent l nm hn, lookupParts_of_absent l nm hn]

theorem findOrCreate_lookup_other (l : List Associate) (nm nm' : String)
    (h : nm' ≠ nm) :
    lookupParts (findOrCreate l nm) nm' = lookupParts l nm' := by
  rw [findOrCreate]
  cases hc : (findAssoc l nm).isSome with
  | true => simp
  | false => simp [lookupParts_append_other l nm nm' h]

theorem findOrCreate_isSome_other (l : List Associate) (nm nm' : String)
    (h : nm' ≠ nm) :
    (findAssoc (findOrCreate l nm) nm').isSome = (findAssoc l nm').isSome := by
  rw [findOrCreate]
  cases hc : (findAssoc l nm).isSome with
  | true => simp
  | false =>
      rw [if_neg (by simp [hc]), findAssoc_append]
      have h2 : findAssoc [(⟨nm, none, 0⟩ : Associate)] nm' = none := by
        simp [findAssoc, List.find?, Ne.symm h]
      cases hfa : findAssoc l nm' <;> simp [hfa, h2]

theorem findOrCreate_isSome_mono (l : List Associate) (nm nm' : String)
    (h : (findAssoc l nm').isSome) :
    (findAssoc (findOrCreate l nm) nm').isSome := by
  rw [findOrCreate]
  cases hc : (findAssoc l nm).isSome with
  | true => simpa using h
  | false =>
      rw [if_neg (by simp [hc]), findAssoc_append]
      cases hfa : findAssoc l nm' with
      | some a => simp [hfa]
      | none => simp [hfa] at h

theorem total_parts_findOrCreate (l : List Associate) (nm : String) :
    total_parts (findOrCreate l nm) = total_parts l := by
  rw [findOrCreate]
  cases hc : (findAssoc l nm).isSome with
  | true => simp
  | false => simp [total_parts_append, total_parts]

theorem names_findOrCreate (l : List Associate) (nm : String) :
    (findOrCreate l nm).map (·.name) =
      l.map (·.name) ++ (if (findAssoc l nm).isSome then [] else [nm]) := by
  rw [findOrCreate]
  cases hc : (findAssoc l nm).isSome with
  | true => simp
  | false => simp [hc]

/-- Updating via `setParts` preserves non-negativity of all counts when the update
function does. -/
theorem setParts_nonneg (l : List Associate) (nm : String) (f : Int → Int)
    (hf : ∀ v, 0 ≤ v → 0 ≤ f v) (h : ∀ a ∈ l, 0 ≤ a.parts_count) :
    ∀ a ∈ setParts l nm f, 0 ≤ a.parts_count := by
  induction l with
  | nil => simp [setParts]
  | cons a rest ih =>
      intro b hb
      by_cases hn : a.name = nm
      · simp only [setParts, if_pos hn, List.mem_cons] at hb
        rcases hb with hb | hb
        · subst hb
          exact hf _ (h a (by simp))
        · exact h b (by simp [hb])
      · simp only [setParts, if_neg hn, List.mem_cons] at hb
        rcases hb with hb | hb
        · subst hb; exact h b (by simp)
        · exact ih (fun x hx => h x (by simp [hx])) b hb

theorem findOrCreate_nonneg (l : List Associate) (nm : String)
    (h : ∀ a ∈ l, 0 ≤ a.parts_count) :
    ∀ a ∈ findOrCreate l nm, 0 ≤ a.parts_count := by
  rw [findOrCreate]
  cases hc : (findAssoc l nm).isSome with
  | true => simpa using h
  | false =>
      intro a ha
      rw [if_neg (by simp [hc]), List.mem_append] at ha
      rcases ha with ha | ha
      · exact h a ha
      · simp at ha; subst ha; simp

/-- Every `parts_count` stays non-negative across a share transfer.  Together
with the fact that `Associate` rows are only ever created with
`parts_count = 0`, this is the reachable-state invariant of the cabinet app:
no associate ever holds a negative number of parts. -/
theorem apply_to_distribution_nonneg (l : List Associate) (c s : String)
    (p : Int) (h : ∀ a ∈ l, 0 ≤ a.parts_count) :
    ∀ a ∈ apply_to_distribution l c s p, 0 ≤ a.parts_count := by
  rw [apply_to_distribution]
  by_cases hp : p ≤ 0
  · simpa [if_pos hp] using h
  · rw [if_neg hp]
    apply setParts_nonneg
    · intro v hv; omega
    · apply setParts_nonneg
      · intro v hv; exact le_max_left 0 _
      · exact findOrCreate_nonneg _ _ (findOrCreate_nonneg _ _ h)

/-- If every count is non-negative and the total is zero, every count is
zero. -/
theorem parts_count_eq_zero_of_total_zero (l : List Associate)
    (hnn : ∀ a ∈ l, 0 ≤ a.parts_count) (h0 : total_parts l = 0) :
    ∀ a ∈ l, a.parts_count = 0 := by
  induction l with
  | nil => simp
  | cons a rest ih =>
      have hsum : a.parts_count + total_parts rest = 0 := by
        simpa [total_parts] using h0
      have hrest : 0 ≤ total_parts rest := by
        apply List.sum_nonneg
        intro x hx
        simp only [List.mem_map] at hx
        obtain ⟨b, hb, rfl⟩ := hx
        exact hnn b (by simp [hb])
      have ha : 0 ≤ a.parts_count := hnn a (by simp)
      intro b hb
      rcases List.mem_cons.mp hb with rfl | hb
      · omega
      · exact ih (fun x hx => hnn x (by simp [hx])) (by omega) b hb

/-- Claim C4: For distinct cedant and cessionnaire names: a non-positive
`parts` value is a no-op; for positive `parts` the cedant's count becomes
`max 0 (previous − parts)` (over-transfers silently floored at zero), the
cessionnaire's count becomes `previous + parts` (absent names counting as a
freshly created 0-parts associate), and exactly the missing names are
appended (cedant first). -/
theorem C4_apply_to_distribution_spec (l : List Associate) (c s : String)
    (p : Int) (hcs : c ≠ s) :
    (p ≤ 0 → apply_to_distribution l c s p = l) ∧
    (0 < p →
      lookupParts (apply_to_distribution l c s p) c =
          max 0 (lookupParts l c - p) ∧
      lookupParts (apply_to_distribution l c s p) s = lookupParts l s + p ∧
      (apply_to_distribution l c s p).map (·.name) =
        (l.map (·.name) ++ (if (findAssoc l c).isSome then [] else [c]))
          ++ (if (findAssoc l s).isSome then [] else [s])) := by
  constructor
  · intro hp
    rw [apply_to_distribution, if_pos hp]
  · intro hp
    simp only [apply_to_distribution, if_neg (not_le.mpr hp)]
    have h1some : (findAssoc (findOrCreate l c) c).isSome :=
      findOrCreate_isSome_self l c
    have h2some_c :
        (findAssoc (findOrCreate (findOrCreate l c) s) c).isSome :=
      findOrCreate_isSome_mono _ s c h1some
    have h2some_s :
        (findAssoc (findOrCreate (findOrCreate l c) s) s).isSome :=
      findOrCreate_isSome_self _ s
    refine ⟨?_, ?_, ?_⟩
    · rw [lookupParts_setParts_other _ s c _ hcs,
        lookupParts_setParts_self _ c _ h2some_c,
        findOrCreate_lookup_other _ s c hcs,
        findOrCreate_lookup_self]
    · rw [lookupParts_setParts_self _ s _
          (by rw [findAssoc_setParts_isSome]; exact h2some_s),
        lookupParts_setParts_other _ c s _ (Ne.symm hcs),
        findOrCreate_lookup_self,
        findOrCreate_lookup_other l c s (Ne.symm hcs)]
    · rw [names_setParts, names_setParts, names_findOrCreate,
        findOrCreate_isSome_other l c s (Ne.symm hcs), names_findOrCreate]

/-- Witness for C4 at a concrete input. -/
theorem C4_witness :
    (("A" : String) ≠ "B") ∧
    (((1 : Int) ≤ 0 → apply_to_distribution [] "A" "B" 1 = []) ∧
     ((0 : Int) < 1 →
       lookupParts (apply_to_distribution [] "A" "B" 1) "A" =
           max 0 (lookupParts [] "A" - 1) ∧
       lookupParts (apply_to_distribution [] "A" "B" 1) "B" =
           lookupParts [] "B" + 1 ∧
       (apply_to_distribution [] "A" "B" 1).map (·.name) =
         (([] : List Associate).map (·.name) ++
             (if (findAssoc [] "A").isSome then [] else ["A"]))
           ++ (if (findAssoc [] "B").isSome then [] else ["B"]))) :=
  ⟨by decide, C4_apply_to_distribution_spec [] "A" "B" 1 (by decide)⟩

/-- Counterexample to claim C3: Transferring 150 parts from A (who holds 100)
to B raises the total from 100 to 150: the claimed invariance of the total
fails on over-transfers. -/
theorem C3_counterexample :
    total_parts (apply_to_distribution
        [⟨"A", none, 100⟩, ⟨"B", none, 0⟩] "A" "B" 150) ≠
      total_parts [⟨"A", none, 100⟩, ⟨"B", none, 0⟩] := by decide

/-- Amended claim C3: A transfer preserves the total exactly when the cedant
already holds at least `parts`; in general the total grows by the shortfall
`max 0 (parts − cedant's previous count)` (and is unchanged for
`parts ≤ 0`). -/
theorem C3_total_parts_change (l : List Associate) (c s : String) (p : Int) :
    total_parts (apply_to_distribution l c s p) =
      total_parts l + (if 0 < p then max 0 (p - lookupParts l c) else 0) := by
  by_cases hp : p ≤ 0
  · rw [apply_to_distribution, if_pos hp, if_neg (not_lt.mpr hp), add_zero]
  · have hp' : 0 < p := not_le.mp hp
    simp only [apply_to_distribution, if_neg hp, if_pos hp']
    have h1some : (findAssoc (findOrCreate l c) c).isSome :=
      findOrCreate_isSome_self l c
    have h2some_c :
        (findAssoc (findOrCreate (findOrCreate l c) s) c).isSome :=
      findOrCreate_isSome_mono _ s c h1some
    have h2some_s :
        (findAssoc (findOrCreate (findOrCreate l c) s) s).isSome :=
      findOrCreate_isSome_self _ s
    have h3some_s :
        (findAssoc (setParts (findOrCreate (findOrCreate l c) s) c
          (fun v => max 0 (v - p))) s).isSome := by
      rw [findAssoc_setParts_isSome]; exact h2some_s
    rw [total_parts_setParts _ s _ h3some_s,
      total_parts_setParts _ c _ h2some_c,
      total_parts_findOrCreate, total_parts_findOrCreate]
    have hvc : lookupParts (findOrCreate (findOrCreate l c) s) c =
        lookupParts l c := by
      by_cases hcs : c = s
      · subst hcs
        rw [findOrCreate_lookup_self, findOrCreate_lookup_self]
      · rw [findOrCreate_lookup_other _ s c hcs, findOrCreate_lookup_self]
    rw [hvc]
    rcases le_total p (lookupParts l c) with h | h
    · rw [max_eq_right (by omega : (0 : Int) ≤ lookupParts l c - p),
        max_eq_left (by omega : p - lookupParts l c ≤ 0)]
      omega
    · rw [max_eq_left (by omega : lookupParts l c - p ≤ 0),
        max_eq_right (by omega : (0 : Int) ≤ p - lookupParts l c)]
      omega

/-- Claim C10: A self-transfer (cedant = cessionnaire) of `p > 0` parts leaves
the associate at `max 0 (previous − p) + p`: unchanged when the associate
held at least `p` parts, raised to exactly `p` otherwise. -/
theorem C10_self_transfer (l : List Associate) (n : String) (p : Int)
    (hp : 0 < p) :
    lookupParts (apply_to_distribution l n n p) n =
        max 0 (lookupParts l n - p) + p ∧
    (p ≤ lookupParts l n →
      lookupParts (apply_to_distribution l n n p) n = lookupParts l n) ∧
    (lookupParts l n < p →
      lookupParts (apply_to_distribution l n n p) n = p) := by
  have hmain : lookupParts (apply_to_distribution l n n p) n =
      max 0 (lookupParts l n - p) + p := by
    simp only [apply_to_distribution, if_neg (not_le.mpr hp)]
    have h2 : (findAssoc (findOrCreate (findOrCreate l n) n) n).isSome :=
      findOrCreate_isSome_self _ n
    rw [lookupParts_setParts_self _ n _
        (by rw [findAssoc_setParts_isSome]; exact h2),
      lookupParts_setParts_self _ n _ h2,
      findOrCreate_lookup_self, findOrCreate_lookup_self]
  refine ⟨hmain, ?_, ?_⟩
  · intro h
    rw [hmain, max_eq_right (by omega : (0 : Int) ≤ lookupParts l n - p)]
    omega
  · intro h
    rw [hmain, max_eq_left (by omega : lookupParts l n - p ≤ 0)]
    omega

/-- Witness for C10 at a concrete input. -/
theorem C10_witness :
    ((0 : Int) < 5) ∧
    (lookupParts (apply_to_distribution [⟨"A", none, 3⟩] "A" "A" 5) "A" =
        max 0 (lookupParts [⟨"A", none, 3⟩] "A" - 5) + 5 ∧
     (5 ≤ lookupParts [⟨"A", none, 3⟩] "A" →
       lookupParts (apply_to_distribution [⟨"A", none, 3⟩] "A" "A" 5) "A" =
         lookupParts [⟨"A", none, 3⟩] "A") ∧
     (lookupParts [⟨"A", none, 3⟩] "A" < 5 →
       lookupParts (apply_to_distribution [⟨"A", none, 3⟩] "A" "A" 5) "A" =
         5)) :=
  ⟨by decide, C10_self_transfer [⟨"A", none, 3⟩] "A" 5 (by decide)⟩

/-- Claim C9: `Societe.distribution` never divides by zero: the denominator
`total_parts or 1` is never zero; with the reachable-state invariant that no
count is negative, a zero total forces every reported percent to `0`, and a
non-zero total yields `percent = parts_count / total * 100` for each
associate. -/
theorem C9_distribution_safe (l : List Associate)
    (hnn : ∀ a ∈ l, 0 ≤ a.parts_count) :
    (((if total_parts l = 0 then 1 else total_parts l : Int) : ℚ) ≠ 0) ∧
    (total_parts l = 0 → ∀ r ∈ distribution l, r.percent = 0) ∧
    (total_parts l ≠ 0 →
      distribution l = l.map fun a =>
        { name := a.name, address := a.address, parts_count := a.parts_count,
          percent := ((a.parts_count : ℚ) / ((total_parts l : Int) : ℚ)) *
            100 }) := by
  refine ⟨?_, ?_, ?_⟩
  · by_cases h : total_parts l = 0
    · simp [h]
    · rw [if_neg h]
      exact_mod_cast h
  · intro h0 r hr
    have hz := parts_count_eq_zero_of_total_zero l hnn h0
    simp only [distribution, List.mem_map] at hr
    obtain ⟨a, ha, rfl⟩ := hr
    simp [hz a ha]
  · intro h
    simp [distribution, if_neg h]

/-- Witness for C9 at a concrete input. -/
theorem C9_witness :
    (∀ a ∈ [(⟨"A", none, 2⟩ : Associate)], 0 ≤ a.parts_count) ∧
    ((((if total_parts [(⟨"A", none, 2⟩ : Associate)] = 0 then 1
          else total_parts [(⟨"A", none, 2⟩ : Associate)] : Int) : ℚ) ≠ 0) ∧
     (total_parts [(⟨"A", none, 2⟩ : Associate)] = 0 →
       ∀ r ∈ distribution [(⟨"A", none, 2⟩ : Associate)], r.percent = 0) ∧
     (total_parts [(⟨"A", none, 2⟩ : Associate)] ≠ 0 →
       distribution [(⟨"A", none, 2⟩ : Associate)] =
         [(⟨"A", none, 2⟩ : Associate)].map fun a =>
           { name := a.name, address := a.address,
             parts_count := a.parts_count,
             percent := ((a.parts_count : ℚ) /
               ((total_parts [(⟨"A", none, 2⟩ : Associate)] : Int) : ℚ)) *
                 100 })) :=
  ⟨by decide, C9_distribution_safe [(⟨"A", none, 2⟩ : Associate)] (by decide)⟩

end Cabinet

namespace Ledger

/-! Correctness of the decimal formatting model. -/

theorem digitsRevGo_eq (fuel n : Nat) (h : n ≤ fuel) :
    digitsRevGo fuel n = Nat.digits 10 n := by
  induction fuel generalizing n with
  | zero =>
      have : n = 0 := Nat.le_zero.mp h
      subst this
      simp [digitsRevGo]
  | succ f ih =>
      rw [digitsRevGo]
      by_cases hn : n = 0
      · subst hn; simp
      · rw [if_neg hn,
          ih (n / 10) (by
            have := Nat.div_lt_self (Nat.pos_of_ne_zero hn) (by norm_num : 1 < 10)
            omega),
          ← Nat.digits_def' (by norm_num : 1 < 10) (Nat.pos_of_ne_zero hn)]

theorem digitsRev_eq (n : Nat) : digitsRev n = Nat.digits 10 n :=
  digitsRevGo_eq n n le_rfl

theorem charVal_digitChar : ∀ d, d < 10 → charVal (Nat.digitChar d) = d := by
  decide

theorem foldl_map_digitChar (ds : List Nat) (acc : Nat)
    (h : ∀ d ∈ ds, d < 10) :
    List.foldl (fun a c => a * 10 + charVal c) acc (ds.map Nat.digitChar) =
      List.foldl (fun a d => a * 10 + d) acc ds := by
  induction ds generalizing acc with
  | nil => rfl
  | cons d rest ih =>
      simp only [List.map, List.foldl]
      rw [charVal_digitChar d (h d (by simp))]
      exact ih _ (fun x hx => h x (by simp [hx]))

theorem foldr_eq_ofDigits (ds : List Nat) :
    List.foldr (fun d a => a * 10 + d) 0 ds = Nat.ofDigits 10 ds := by
  induction ds with
  | nil => simp [Nat.ofDigits]
  | cons d rest ih =>
      rw [List.foldr, ih, Nat.ofDigits_cons]
      ring

theorem foldl_zeros (k : Nat) :
    List.foldl (fun a c => a * 10 + charVal c) 0 (List.replicate k '0') = 0 := by
  induction k with
  | zero => rfl
  | succ m ih =>
      rw [List.replicate, List.foldl]
      simpa [charVal] using ih

theorem unpad4_pad4 (n : Nat) : unpad4 (pad4 n) = n := by
  by_cases hn : n = 0
  · subst hn; decide
  · show strToNatAux (List.replicate (4 - (natDigitsStr n).length) '0' ++
      (natDigitsStr n).data) = n
    rw [strToNatAux, List.foldl_append, foldl_zeros]
    have hdata : (natDigitsStr n).data =
        ((digitsRev n).reverse).map Nat.digitChar := by
      rw [natDigitsStr, if_neg hn]
    rw [hdata, foldl_map_digitChar _ _ (by
      intro d hd
      rw [digitsRev_eq] at hd
      exact Nat.digits_lt_base (by norm_num) (List.mem_reverse.mp hd))]
    rw [List.foldl_reverse]
    have : (fun (x : Nat) (y : Nat) => y * 10 + x) =
        (fun d a => a * 10 + d) := rfl
    rw [this, foldr_eq_ofDigits, digitsRev_eq, Nat.ofDigits_digits]

theorem pad4_injective : Function.Injective pad4 := by
  intro a b h
  rw [← unpad4_pad4 a, h, unpad4_pad4]

theorem string_append_cancel_left (p s t : String) (h : p ++ s = p ++ t) :
    s = t := by
  apply String.ext
  have hd : p.data ++ s.data = p.data ++ t.data := by
    rw [← String.data_append, ← String.data_append, h]
  exact List.append_cancel_left hd

theorem runCallsJournal_eq (j : Journal) (d : PyDate) (N : Nat) :
    runCallsJournal j d N =
      ((List.range N).map fun i =>
         j.prefix_str ++ natDigitsStr d.year ++ "-" ++
           pad4 (j.next_number + i),
       { j with next_number := j.next_number + N }) := by
  induction N generalizing j with
  | zero => simp [runCallsJournal]
  | succ n ih =>
      rw [runCallsJournal]
      simp only [Journal.next_sequence, ih]
      refine congrArg₂ Prod.mk ?_ ?_
      · rw [List.range_succ_eq_map, List.map_cons, List.map_map, Nat.add_zero]
        congr 1
        apply List.map_congr_left
        intro i _
        have h1 : j.next_number + 1 + i = j.next_number + Nat.succ i := by
          omega
        simp [Function.comp, h1]
      · congr 1
        omega

/-- Claim C2: `next_sequence` (on a Journal or a Numbering counter) returns
the prefix, the calendar year of the supplied date, a hyphen and the counter
zero-padded to four digits, and increments the counter by exactly one;
consequently N successive calls on the ACH- journal starting at 1 in 2024
return exactly the references ACH-2024-0001 … ACH-2024-NNNN (4-digit
zero-padded, consecutive), with no repeats, leaving the counter at N+1. -/
theorem C2_next_sequence_spec (j : Journal) (nb : Numbering) (d : PyDate)
    (N : Nat) :
    (j.next_sequence d =
      (j.prefix_str ++ natDigitsStr d.year ++ "-" ++ pad4 j.next_number,
       { j with next_number := j.next_number + 1 })) ∧
    (nb.next_sequence d =
      (nb.prefix_str ++ natDigitsStr d.year ++ "-" ++ pad4 nb.next_number,
       { nb with next_number := nb.next_number + 1 })) ∧
    (runCallsJournal journalACH ⟨2024, 5, 1⟩ N =
      ((List.range N).map fun i => "ACH-2024-" ++ pad4 (i + 1),
       { journalACH with next_number := N + 1 })) ∧
    ((runCallsJournal journalACH ⟨2024, 5, 1⟩ N).1.Nodup) ∧
    (runCallsJournal journalACH ⟨2024, 5, 1⟩ 3 =
      (["ACH-2024-0001", "ACH-2024-0002", "ACH-2024-0003"],
       { journalACH with next_number := 4 })) := by
  have hrun : runCallsJournal journalACH ⟨2024, 5, 1⟩ N =
      ((List.range N).map fun i => "ACH-2024-" ++ pad4 (i + 1),
       { journalACH with next_number := N + 1 }) := by
    rw [runCallsJournal_eq]
    refine congrArg₂ Prod.mk ?_ ?_
    · apply List.map_congr_left
      intro i _
      have h1 : journalACH.next_number + i = i + 1 := by
        show 1 + i = i + 1
        omega
      rw [h1]
      congr 1
    · show ({ journalACH with next_number := 1 + N } : Journal) = _
      have hN : 1 + N = N + 1 := by omega
      rw [hN]
  refine ⟨rfl, rfl, hrun, ?_, by decide⟩
  rw [hrun]
  exact List.Nodup.map
    (fun a b hab => by
      have h2 := string_append_cancel_left _ _ _ hab
      have h3 := pad4_injective h2
      omega)
    (List.nodup_range N)

/-! Entry creation: balance check and all-or-nothing persistence. -/

theorem keptLines_sum_debit (rows : List FormLine) :
    ((keptLines rows).map (·.debit)).sum =
      (((rows.filter fun r => r.account.isSome).map (·.debit))).sum := by
  induction rows with
  | nil => rfl
  | cons r rest ih =>
      cases hacc : r.account with
      | none =>
          simp only [keptLines, List.filterMap_cons, hacc, List.filter_cons]
          simpa [hacc] using ih
      | some a =>
          by_cases hz : r.debit = 0 ∧ r.credit = 0
          · simp only [keptLines, List.filterMap_cons, hacc, if_pos hz,
              List.filter_cons]
            simp only [keptLines] at ih
            simp [hacc, ih, hz.1]
          · simp only [keptLines, List.filterMap_cons, hacc, if_neg hz,
              List.filter_cons]
            simp only [keptLines] at ih
            simp [hacc, ih]

theorem keptLines_sum_credit (rows : List FormLine) :
    ((keptLines rows).map (·.credit)).sum =
      (((rows.filter fun r => r.account.isSome).map (·.credit))).sum := by
  induction rows with
  | nil => rfl
  | cons r rest ih =>
      cases hacc : r.account with
      | none =>
          simp only [keptLines, List.filterMap_cons, hacc, List.filter_cons]
          simpa [hacc] using ih
      | some a =>
          by_cases hz : r.debit = 0 ∧ r.credit = 0
          · simp only [keptLines, List.filterMap_cons, hacc, if_pos hz,
              List.filter_cons]
            simp only [keptLines] at ih
            simp [hacc, ih, hz.2]
          · simp only [keptLines, List.filterMap_cons, hacc, if_neg hz,
              List.filter_cons]
            simp only [keptLines] at ih
            simp [hacc, ih]

/-- Claim C1: entry creation succeeds exactly when the submitted entry
lines' debit total equals their credit total (rows without a selected
account are not entry lines); on failure nothing is persisted — the journal
counter and the entries table are exactly as before — and on success
exactly one new entry (unvalidated, carrying the kept lines) is appended. -/
theorem C1_entry_create_balance (j : Journal) (entries : List Entry)
    (d : PyDate) (desc docref : Option String) (rows : List FormLine) :
    ((entry_create j entries d desc docref rows).1 = true ↔
      (((rows.filter fun r => r.account.isSome).map (·.debit))).sum =
        (((rows.filter fun r => r.account.isSome).map (·.credit))).sum) ∧
    ((entry_create j entries d desc docref rows).1 = false →
      entry_create j entries d desc docref rows = (false, j, entries)) ∧
    ((entry_create j entries d desc docref rows).1 = true →
      entry_create j entries d desc docref rows =
        (true, (j.next_sequence d).2,
         entries ++ [⟨d, (j.next_sequence d).1, desc, docref, false,
           keptLines rows⟩])) := by
  have hd := keptLines_sum_debit rows
  have hc := keptLines_sum_credit rows
  simp only [entry_create]
  by_cases hb : (⟨d, (j.next_sequence d).1, desc, docref, false,
      keptLines rows⟩ : Entry).is_balanced = true
  · rw [if_pos hb]
    simp only [Entry.is_balanced, Entry.total_debit, Entry.total_credit,
      decide_eq_true_eq] at hb
    refine ⟨⟨fun _ => by omega, fun _ => rfl⟩, ?_, fun _ => rfl⟩
    intro hfalse
    simp at hfalse
  · rw [if_neg hb]
    simp only [Entry.is_balanced, Entry.total_debit, Entry.total_credit,
      decide_eq_true_eq] at hb
    refine ⟨⟨?_, ?_⟩, fun _ => rfl, ?_⟩
    · intro htrue
      simp at htrue
    · intro hsum
      exact absurd (by omega) hb
    · intro htrue
      simp at htrue

/-- Claim C8: a submitted line with zero debit and zero credit is dropped
before the balance check — it yields no `EntryLine` and the outcome of the
whole request is identical to the same submission without that line. -/
theorem C8_zero_zero_line_dropped (j : Journal) (entries : List Entry)
    (d : PyDate) (desc docref : Option String) (xs ys : List FormLine)
    (r : FormLine) (hdeb : r.debit = 0) (hcred : r.credit = 0) :
    keptLines (xs ++ r :: ys) = keptLines (xs ++ ys) ∧
    entry_create j entries d desc docref (xs ++ r :: ys) =
      entry_create j entries d desc docref (xs ++ ys) := by
  have hk : keptLines (xs ++ r :: ys) = keptLines (xs ++ ys) := by
    cases hacc : r.account with
    | none =>
        simp [keptLines, List.filterMap_append, List.filterMap_cons, hacc]
    | some a =>
        simp [keptLines, List.filterMap_append, List.filterMap_cons, hacc,
          hdeb, hcred]
  exact ⟨hk, by simp only [entry_create, hk]⟩

/-! Aggregation reports: line selection, trial balance, income statement. -/

theorem entryInScope_iff (s e : Option PyDate) (en : Entry) :
    entryInScope s e en = true ↔
      (en.validated = true ∧
       (∀ d, s = some d → pyDateLE d en.entry_date = true) ∧
       (∀ d, e = some d → pyDateLE en.entry_date d = true)) := by
  cases s <;> cases e <;>
    simp [entryInScope, Bool.and_eq_true, and_assoc]

theorem mem_scopedPairs (db : List Entry) (s e : Option PyDate)
    (en : Entry) (l : EntryLine) :
    (en, l) ∈ scopedPairs db s e ↔
      en ∈ db ∧ l ∈ en.lines ∧ entryInScope s e en = true := by
  simp only [scopedPairs, List.mem_flatten, List.mem_map]
  constructor
  · rintro ⟨sub, ⟨en', hen', rfl⟩, hmem⟩
    simp only [List.mem_map] at hmem
    obtain ⟨l', hl', heq⟩ := hmem
    rw [Prod.mk.injEq] at heq
    obtain ⟨rfl, rfl⟩ := heq
    rw [scopedEntries, List.mem_filter] at hen'
    exact ⟨hen'.1, hl', hen'.2⟩
  · rintro ⟨hdb, hl, hscope⟩
    exact ⟨en.lines.map fun l' => (en, l'),
      ⟨en, List.mem_filter.mpr ⟨hdb, hscope⟩, rfl⟩,
      List.mem_map.mpr ⟨l, hl, rfl⟩⟩

/-- Claim C5: every aggregation report draws exactly the (entry, line) rows
whose entry is validated and dated inside the optional inclusive
[start, end] window — an entry dated exactly on the end bound passes the
`pyDateLE` filter since the order is reflexive, and an unvalidated entry is
never selected; the ledger additionally restricts to one account, and the
balance-sheet/income-statement queries additionally restrict to a class
set. -/
theorem C5_report_line_selection (db : List Entry) (s e : Option PyDate) :
    (∀ en l, (en, l) ∈ scopedPairs db s e ↔
      (en ∈ db ∧ l ∈ en.lines ∧ en.validated = true ∧
       (∀ d, s = some d → pyDateLE d en.entry_date = true) ∧
       (∀ d, e = some d → pyDateLE en.entry_date d = true))) ∧
    (∀ a en l, (en, l) ∈ report_ledger_for db s e a ↔
      ((en, l) ∈ scopedPairs db s e ∧ l.account = a)) ∧
    (∀ classes en l, (en, l) ∈ classPairs db s e classes ↔
      ((en, l) ∈ scopedPairs db s e ∧ l.account.class_code ∈ classes)) ∧
    (scopedLines db s e = (scopedPairs db s e).map (·.2)) ∧
    (∀ d, pyDateLE d d = true) := by
  refine ⟨?_, ?_, ?_, rfl, ?_⟩
  · intro en l
    rw [mem_scopedPairs, entryInScope_iff]
  · intro a en l
    rw [report_ledger_for,
      (List.perm_insertionSort entryOrdLE _).mem_iff]
    simp [List.mem_filter]
  · intro classes en l
    rw [classPairs]
    simp [List.mem_filter]
  · intro d
    simp [pyDateLE]

/-- Witness for C8 at a concrete input. -/
theorem C8_witness :
    ((⟨none, none, 0, 0⟩ : FormLine).debit = 0) ∧
    ((⟨none, none, 0, 0⟩ : FormLine).credit = 0) ∧
    (keptLines ([] ++ (⟨none, none, 0, 0⟩ : FormLine) :: []) =
        keptLines ([] ++ []) ∧
     entry_create journalACH [] ⟨2024, 1, 2⟩ none none
         ([] ++ (⟨none, none, 0, 0⟩ : FormLine) :: []) =
       entry_create journalACH [] ⟨2024, 1, 2⟩ none none ([] ++ [])) :=
  ⟨by decide, by decide,
   C8_zero_zero_line_dropped journalACH [] ⟨2024, 1, 2⟩ none none [] []
     ⟨none, none, 0, 0⟩ (by decide) (by decide)⟩

theorem sum_map_filter_split (p : EntryLine → Bool) (g : EntryLine → Int)
    (ls : List EntryLine) :
    ((ls.filter p).map g).sum +
        ((ls.filter fun l => !(p l)).map g).sum =
      (ls.map g).sum := by
  induction ls with
  | nil => rfl
  | cons l rest ih =>
      cases hp : p l <;> simp [List.filter_cons, hp] <;> omega

theorem filter_account_of_removed (ls : List EntryLine) (a k : Account)
    (hk : k ≠ a) :
    ((ls.filter fun l => !(decide (l.account = a))).filter
        fun l => decide (l.account = k)) =
      ls.filter fun l => decide (l.account = k) := by
  induction ls with
  | nil => rfl
  | cons l rest ih =>
      by_cases hla : l.account = a
      · have hlk : ¬ l.account = k := fun hc => hk (hc.symm.trans hla)
        simp [List.filter_cons, hla, hlk, Ne.symm hk, ih]
      · by_cases hlk : l.account = k
        · simp [List.filter_cons, hla, hlk, hk, ih]
        · simp [List.filter_cons, hla, hlk, ih]

theorem sum_fiberwise (ks : List Account) (g : EntryLine → Int) :
    ∀ ls : List EntryLine, ks.Nodup → (∀ l ∈ ls, l.account ∈ ks) →
      ((ks.map fun a =>
          ((ls.filter fun l => decide (l.account = a)).map g).sum)).sum =
        (ls.map g).sum := by
  induction ks with
  | nil =>
      intro ls _ hcov
      have hnil : ls = [] :=
        List.eq_nil_iff_forall_not_mem.mpr fun l hl => by
          simpa using hcov l hl
      subst hnil
      rfl
  | cons a ks ih =>
      intro ls hnd hcov
      rw [List.map_cons, List.sum_cons]
      have hmapeq :
          (ks.map fun k =>
            ((ls.filter fun l => decide (l.account = k)).map g).sum) =
          (ks.map fun k =>
            (((ls.filter fun l => !(decide (l.account = a))).filter
                fun l => decide (l.account = k)).map g).sum) :=
        List.map_congr_left fun k hkmem => by
          have hka : k ≠ a := fun hc =>
            (List.nodup_cons.mp hnd).1 (hc ▸ hkmem)
          rw [filter_account_of_removed ls a k hka]
      have hcov' : ∀ l ∈ ls.filter fun l => !(decide (l.account = a)),
          l.account ∈ ks := by
        intro l hl
        rw [List.mem_filter] at hl
        have hla : ¬ l.account = a := by simpa using hl.2
        rcases List.mem_cons.mp (hcov l hl.1) with hc | hc
        · exact absurd hc hla
        · exact hc
      rw [hmapeq, ih _ (List.nodup_cons.mp hnd).2 hcov']
      exact sum_map_filter_split (fun l => decide (l.account = a)) g ls

theorem pairs_lines_sum (L : List Entry) (g : EntryLine → Int) :
    ((((L.map fun en => en.lines.map fun l => (en, l)).flatten).map
        (·.2)).map g).sum =
      (L.map fun en => (en.lines.map g).sum).sum := by
  induction L with
  | nil => rfl
  | cons en L ih =>
      simp only [List.map_cons, List.flatten_cons, List.map_append,
        List.sum_append, List.map_map]
      simp only [List.map_map] at ih
      rw [ih]
      congr 1

theorem scopedLines_sum (db : List Entry) (s e : Option PyDate)
    (g : EntryLine → Int) :
    ((scopedLines db s e).map g).sum =
      ((scopedEntries db s e).map fun en => (en.lines.map g).sum).sum := by
  rw [scopedLines, scopedPairs]
  exact pairs_lines_sum _ g

/-- Claim C6: the trial balance has exactly one row per posted account
(keys are duplicate-free and are exactly the accounts of the selected
lines), each row carrying that account's debit sum, credit sum and balance
debit − credit; rows are ordered by account code; the grand totals are the
sums of the per-row debit and credit columns; and when every selected entry
is individually balanced the two grand totals coincide. -/
theorem C6_trial_balance_spec (db : List Entry) (s e : Option PyDate)
    (hbal : ∀ en ∈ scopedEntries db s e, en.total_debit = en.total_credit) :
    ((tbKeys (scopedLines db s e)).Nodup ∧
     (∀ a, a ∈ tbKeys (scopedLines db s e) ↔
        a ∈ (scopedLines db s e).map (·.account))) ∧
    (report_trial_balance_rows db s e =
      (tbKeys (scopedLines db s e)).map fun a =>
        ⟨a.code, a.name, sumDebitFor (scopedLines db s e) a,
         sumCreditFor (scopedLines db s e) a,
         sumDebitFor (scopedLines db s e) a -
           sumCreditFor (scopedLines db s e) a⟩) ∧
    ((report_trial_balance_rows db s e).Pairwise fun r1 r2 =>
      r1.code ≤ r2.code) ∧
    (report_trial_balance_totals db s e =
      (((report_trial_balance_rows db s e).map (·.debit)).sum,
       ((report_trial_balance_rows db s e).map (·.credit)).sum)) ∧
    (report_trial_balance_totals db s e).1 =
      (report_trial_balance_totals db s e).2 := by
  have hperm :
      List.Perm (tbKeys (scopedLines db s e))
        (((scopedLines db s e).map (·.account)).dedup) :=
    List.perm_insertionSort accLE _
  refine ⟨⟨?_, ?_⟩, rfl, ?_, rfl, ?_⟩
  · exact hperm.nodup_iff.mpr (List.nodup_dedup _)
  · intro a
    rw [hperm.mem_iff, List.mem_dedup]
  · have hs := List.sorted_insertionSort accLE
      ((scopedLines db s e).map (·.account)).dedup
    exact List.Pairwise.map _ (fun a b hab => hab) hs
  · have hND : (((scopedLines db s e).map (·.account)).dedup).Nodup :=
      List.nodup_dedup _
    have hCOV : ∀ l ∈ scopedLines db s e,
        l.account ∈ ((scopedLines db s e).map (·.account)).dedup :=
      fun l hl => List.mem_dedup.mpr (List.mem_map.mpr ⟨l, hl, rfl⟩)
    have h1 : (report_trial_balance_totals db s e).1 =
        ((tbKeys (scopedLines db s e)).map
          fun a => sumDebitFor (scopedLines db s e) a).sum := by
      simp only [report_trial_balance_totals, report_trial_balance_rows,
        List.map_map]
      rfl
    have h2 : (report_trial_balance_totals db s e).2 =
        ((tbKeys (scopedLines db s e)).map
          fun a => sumCreditFor (scopedLines db s e) a).sum := by
      simp only [report_trial_balance_totals, report_trial_balance_rows,
        List.map_map]
      rfl
    calc (report_trial_balance_totals db s e).1
        = ((tbKeys (scopedLines db s e)).map
            fun a => sumDebitFor (scopedLines db s e) a).sum := h1
      _ = ((((scopedLines db s e).map (·.account)).dedup).map
            fun a => sumDebitFor (scopedLines db s e) a).sum :=
          List.Perm.sum_eq (hperm.map _)
      _ = ((scopedLines db s e).map (·.debit)).sum :=
          sum_fiberwise _ _ _ hND hCOV
      _ = ((scopedEntries db s e).map
            fun en => (en.lines.map (·.debit)).sum).sum :=
          scopedLines_sum db s e _
      _ = ((scopedEntries db s e).map
            fun en => (en.lines.map (·.credit)).sum).sum :=
          congrArg List.sum
            (List.map_congr_left fun en hen => hbal en hen)
      _ = ((scopedLines db s e).map (·.credit)).sum :=
          (scopedLines_sum db s e _).symm
      _ = ((((scopedLines db s e).map (·.account)).dedup).map
            fun a => sumCreditFor (scopedLines db s e) a).sum :=
          (sum_fiberwise _ _ _ hND hCOV).symm
      _ = ((tbKeys (scopedLines db s e)).map
            fun a => sumCreditFor (scopedLines db s e) a).sum :=
          (List.Perm.sum_eq (hperm.map _)).symm
      _ = (report_trial_balance_totals db s e).2 := h2.symm

/-- Witness for C6 at a concrete input. -/
theorem C6_witness :
    (∀ en ∈ scopedEntries dbSample none none,
      en.total_debit = en.total_credit) ∧
    (((tbKeys (scopedLines dbSample none none)).Nodup ∧
      (∀ a, a ∈ tbKeys (scopedLines dbSample none none) ↔
         a ∈ (scopedLines dbSample none none).map (·.account))) ∧
     (report_trial_balance_rows dbSample none none =
       (tbKeys (scopedLines dbSample none none)).map fun a =>
         ⟨a.code, a.name, sumDebitFor (scopedLines dbSample none none) a,
          sumCreditFor (scopedLines dbSample none none) a,
          sumDebitFor (scopedLines dbSample none none) a -
            sumCreditFor (scopedLines dbSample none none) a⟩) ∧
     ((report_trial_balance_rows dbSample none none).Pairwise fun r1 r2 =>
       r1.code ≤ r2.code) ∧
     (report_trial_balance_totals dbSample none none =
       (((report_trial_balance_rows dbSample none none).map (·.debit)).sum,
        ((report_trial_balance_rows dbSample none none).map
          (·.credit)).sum)) ∧
     (report_trial_balance_totals dbSample none none).1 =
       (report_trial_balance_totals dbSample none none).2) :=
  ⟨by decide, C6_trial_balance_spec dbSample none none (by decide)⟩

theorem sum_map_sub_pairs (ls : List (Entry × EntryLine)) :
    (ls.map fun p => p.2.credit - p.2.debit).sum =
      (ls.map fun p => p.2.credit).sum - (ls.map fun p => p.2.debit).sum := by
  induction ls with
  | nil => rfl
  | cons p rest ih =>
      simp only [List.map_cons, List.sum_cons, ih]
      omega

theorem classPairs_singleton (db : List Entry) (s e : Option PyDate)
    (c : String) :
    classPairs db s e [c] =
      (scopedPairs db s e).filter fun p =>
        decide (p.2.account.class_code = c) := by
  rw [classPairs]
  apply List.filter_congr
  intro p _
  exact decide_eq_decide.mpr (by simp)

/-- Claim C7: the income statement is the triple (revenue, expenses,
result) where revenue sums credit − debit over the selected lines of
class-7 accounts, expenses sums credit − debit over the selected lines of
class-6 accounts, and result = revenue − expenses. -/
theorem C7_income_statement_spec (db : List Entry) (s e : Option PyDate) :
    (report_income_statement db s e =
      (sum_for_classes_income db s e ["7"],
       sum_for_classes_income db s e ["6"],
       sum_for_classes_income db s e ["7"] -
         sum_for_classes_income db s e ["6"])) ∧
    (sum_for_classes_income db s e ["7"] =
      ((((scopedPairs db s e).filter fun p =>
          decide (p.2.account.class_code = "7")).map fun p =>
            p.2.credit - p.2.debit)).sum) ∧
    (sum_for_classes_income db s e ["6"] =
      ((((scopedPairs db s e).filter fun p =>
          decide (p.2.account.class_code = "6")).map fun p =>
            p.2.credit - p.2.debit)).sum) := by
  refine ⟨rfl, ?_, ?_⟩
  · rw [sum_for_classes_income, ← classPairs_singleton db s e "7",
      sum_map_sub_pairs]
  · rw [sum_for_classes_income, ← classPairs_singleton db s e "6",
      sum_map_sub_pairs]

end Ledger
